import Mathlib

/-!
Verification of the NBT (Named Binary Tag) encoder of this repository
(`src/encode.rs`) against its natural-language specification.

Shallow embedding conventions:
* A Rust `u8` byte on the wire is a `Nat` (always `< 256` when produced by the
  byte-serialisation helpers below, which reduce modulo 256 exactly where the
  Rust code casts).
* A Rust `String` / `&str` is its UTF-8 byte sequence, `List Nat`;
  `value.len()` is the byte length, i.e. `List.length`.
* `f32` / `f64` payloads are carried as their IEEE-754 bit patterns (`Nat`,
  reduced modulo `2^32` / `2^64` on the wire); the encoder only moves the bits.
* The generic byte sink `W : Write` is modelled as the list of bytes written
  so far together with a fault oracle `fails : Nat → Bool` saying whether the
  write of the n-th byte fails.  A failing write appends nothing and aborts,
  mirroring `?` on `std::io::Result`; bytes written earlier stay in the sink.
-/

namespace Nbt

/-- Big-endian byte serialisation: `beBytes w n` is the `w`-byte big-endian
encoding of `n % 256 ^ w`.  This models byteorder's `write_uN::<BigEndian>`
together with the `as uN` cast at the call sites of `encode.rs`. -/
def beBytes : Nat → Nat → List Nat
  | 0, _ => []
  | w + 1, n => n / 256 ^ w % 256 :: beBytes w n

/-- Big-endian value of a byte list (accumulator form). -/
def beValAux (a : Nat) : List Nat → Nat
  | [] => a
  | b :: bs => beValAux (a * 256 + b) bs

/-- Big-endian value of a byte list: what a decoder reading the field gets. -/
def beVal (bs : List Nat) : Nat := beValAux 0 bs

/-- Two's-complement big-endian bytes of a signed integer in `w` bytes;
models byteorder's `write_iN::<BigEndian>`. -/
def intBe (w : Nat) (v : Int) : List Nat :=
  beBytes w (v % ((2 : Int) ^ (8 * w))).toNat

/-- Modelled from the spec: the `Tag` union (spec §3) with one variant per
NBT kind.  The `Tag`/`CompoundTag` data-model source file is not part of the
excerpt; payload types follow the table in §3.  A nested compound carries the
optional name and the insertion-ordered key/tag pairs of its `CompoundTag`
(the encoder reads only the pairs, `value.tags`, for nested compounds). -/
inductive Tag where
  | byte (v : Int) : Tag
  | short (v : Int) : Tag
  | int (v : Int) : Tag
  | long (v : Int) : Tag
  | float (bits : Nat) : Tag
  | double (bits : Nat) : Tag
  | byteArray (v : List Int) : Tag
  | string (v : List Nat) : Tag
  | list (v : List Tag) : Tag
  | compound (name : Option (List Nat)) (tags : List (List Nat × Tag)) : Tag
  | intArray (v : List Int) : Tag
  | longArray (v : List Int) : Tag
  deriving Repr

/-- Modelled from the spec: `CompoundTag` (spec §3): an optional name plus an
ordered mapping from string key to `Tag`, kept as the insertion-ordered list
of pairs. -/
structure CompoundTag where
  name : Option (List Nat)
  tags : List (List Nat × Tag)

/-- The `Tag::Compound(compound_tag.clone())` used by `write_compound_tag`. -/
def CompoundTag.toTag (c : CompoundTag) : Tag := Tag.compound c.name c.tags

/-- Modelled from the spec: `Tag::type_id` (spec §4.1 and the wire-constant
table of §6): a fixed lookup from variant to id in `[1, 12]`. -/
def typeId : Tag → Nat
  | .byte _ => 1
  | .short _ => 2
  | .int _ => 3
  | .long _ => 4
  | .float _ => 5
  | .double _ => 6
  | .byteArray _ => 7
  | .string _ => 8
  | .list _ => 9
  | .compound _ _ => 10
  | .intArray _ => 11
  | .longArray _ => 12

/-- The byte sink: bytes written so far plus the fault oracle. -/
structure WState where
  out : List Nat
  fails : Nat → Bool

/-- One underlying byte write.  If the oracle fails the write of the next
byte, nothing is appended and the error propagates (the error value carries
the sink, which the caller keeps, as with `&mut W` in Rust). -/
def writeByte (s : WState) (b : Nat) : Except WState WState :=
  if s.fails s.out.length then .error s
  else .ok ⟨s.out ++ [b], s.fails⟩

/-- Write a byte list byte by byte, aborting at the first failing write. -/
def emit (s : WState) : List Nat → Except WState WState
  | [] => .ok s
  | b :: bs => do
    let s1 ← writeByte s b
    emit s1 bs

/-- `write_string` (src/encode.rs:122-127): `write_u16::<BigEndian>(value.len()
as u16)` then the raw UTF-8 bytes.  The `as u16` cast is the modulo-`2^16`
reduction inside `beBytes 2`. -/
def writeString (s : WState) (value : List Nat) : Except WState WState := do
  let s1 ← emit s (beBytes 2 value.length)
  emit s1 value

mutual

/-- `write_tag` (src/encode.rs:63-120): write only the payload of a tag.
Scalars are fixed-width big-endian; arrays get a `len() as u32` big-endian
count then their elements; a list gets the first element's type id (or 0 when
empty), the `len() as u32` count, then payload-only elements; a compound gets
`type id, name, payload` per pair in order, then the sentinel byte 0. -/
def writeTag : WState → Tag → Except WState WState
  | s, .byte v => emit s (intBe 1 v)
  | s, .short v => emit s (intBe 2 v)
  | s, .int v => emit s (intBe 4 v)
  | s, .long v => emit s (intBe 8 v)
  | s, .float bits => emit s (beBytes 4 bits)
  | s, .double bits => emit s (beBytes 8 bits)
  | s, .byteArray v => do
    let s1 ← emit s (beBytes 4 v.length)
    emit s1 (v.flatMap (intBe 1))
  | s, .string v => writeString s v
  | s, .list v => do
    let s1 ← match v with
      | [] => emit s [0]
      | t :: _ => emit s [typeId t]
    let s2 ← emit s1 (beBytes 4 v.length)
    writeTagList s2 v
  | s, .compound _ tags => do
    let s1 ← writeEntryList s tags
    emit s1 [0]
  | s, .intArray v => do
    let s1 ← emit s (beBytes 4 v.length)
    emit s1 (v.flatMap (intBe 4))
  | s, .longArray v => do
    let s1 ← emit s (beBytes 4 v.length)
    emit s1 (v.flatMap (intBe 8))

/-- The `for tag in value` loop of the `Tag::List` arm. -/
def writeTagList : WState → List Tag → Except WState WState
  | s, [] => .ok s
  | s, t :: ts => do
    let s1 ← writeTag s t
    writeTagList s1 ts

/-- The `for (name, tag) in value.tags` loop of the `Tag::Compound` arm. -/
def writeEntryList : WState → List (List Nat × Tag) → Except WState WState
  | s, [] => .ok s
  | s, (n, t) :: rest => do
    let s1 ← emit s [typeId t]
    let s2 ← writeString s1 n
    let s3 ← writeTag s2 t
    writeEntryList s3 rest

end

/-- `write_compound_tag` (src/encode.rs:50-61): type id of
`Tag::Compound(compound_tag)`, then the name (empty when `None`, via
`as_deref().unwrap_or("")`), then the tag payload. -/
def writeCompoundTag (s : WState) (c : CompoundTag) : Except WState WState := do
  let name := c.name.getD []
  let tag := c.toTag
  let s1 ← emit s [typeId tag]
  let s2 ← writeString s1 name
  writeTag s2 tag

/-- The byte sequence `write_string` pushes into the sink. -/
def stringBytes (value : List Nat) : List Nat :=
  beBytes 2 value.length ++ value

mutual

/-- The byte sequence `write_tag` pushes into the sink (its payload). -/
def tagBytes : Tag → List Nat
  | .byte v => intBe 1 v
  | .short v => intBe 2 v
  | .int v => intBe 4 v
  | .long v => intBe 8 v
  | .float bits => beBytes 4 bits
  | .double bits => beBytes 8 bits
  | .byteArray v => beBytes 4 v.length ++ v.flatMap (intBe 1)
  | .string v => stringBytes v
  | .list v =>
    (match v with
      | [] => [0]
      | t :: _ => [typeId t]) ++ (beBytes 4 v.length ++ tagListBytes v)
  | .compound _ tags => entryListBytes tags ++ [0]
  | .intArray v => beBytes 4 v.length ++ v.flatMap (intBe 4)
  | .longArray v => beBytes 4 v.length ++ v.flatMap (intBe 8)

/-- Concatenated payloads of a list's elements. -/
def tagListBytes : List Tag → List Nat
  | [] => []
  | t :: ts => tagBytes t ++ tagListBytes ts

/-- Concatenated `type id ++ name ++ payload` triples of a compound's pairs. -/
def entryListBytes : List (List Nat × Tag) → List Nat
  | [] => []
  | (n, t) :: rest =>
    [typeId t] ++ (stringBytes n ++ (tagBytes t ++ entryListBytes rest))

end

/-- The byte sequence `write_compound_tag` pushes into the sink. -/
def compoundTagBytes (c : CompoundTag) : List Nat :=
  [typeId c.toTag] ++ (stringBytes (c.name.getD []) ++ tagBytes c.toTag)

/-! ### Characterising the sink interaction -/

/-- Index (relative to `start`) of the first failing write among the next
`len` byte writes, if any. -/
def firstFail (f : Nat → Bool) (start : Nat) : Nat → Option Nat
  | 0 => none
  | len + 1 =>
    if f start then some 0
    else (firstFail f (start + 1) len).map (· + 1)

/-- What writing the byte list `bs` after `pre` must produce: everything on
success, and on the first failing write the error with exactly the bytes
before that write in the sink. -/
def runModel (pre : List Nat) (f : Nat → Bool) (bs : List Nat) :
    Except WState WState :=
  match firstFail f pre.length bs.length with
  | none => .ok ⟨pre ++ bs, f⟩
  | some k => .error ⟨pre ++ bs.take k, f⟩

theorem emit_append (s : WState) (a b : List Nat) :
    emit s (a ++ b) = (emit s a).bind (fun s1 => emit s1 b) := by
  induction a generalizing s with
  | nil => rfl
  | cons x xs ih =>
    simp only [List.cons_append, emit]
    cases hw : writeByte s x with
    | error e => simp [Except.bind, hw, bind]
    | ok s1 => simp [Except.bind, hw, bind, ih]

theorem emit_eq_runModel (bs : List Nat) (pre : List Nat) (f : Nat → Bool) :
    emit ⟨pre, f⟩ bs = runModel pre f bs := by
  induction bs generalizing pre with
  | nil => simp [emit, runModel, firstFail]
  | cons b rest ih =>
    simp only [emit, runModel, firstFail, writeByte, bind, Except.bind]
    by_cases hf : f pre.length
    · simp [hf]
    · simp only [hf, if_false, Bool.false_eq_true]
      have step := ih (pre ++ [b])
      simp only [runModel, List.length_append, List.length_cons,
        List.length_nil, Nat.zero_add] at step
      rw [step]
      cases hff : firstFail f (pre.length + 1) rest.length with
      | none => simp [hff, List.append_assoc]
      | some k => simp [hff, List.append_assoc, List.take_succ_cons]

theorem ok_bind (a : WState) (f : WState → Except WState WState) :
    (Except.ok a : Except WState WState) >>= f = f a := rfl

theorem error_bind (e : WState) (f : WState → Except WState WState) :
    (Except.error e : Except WState WState) >>= f = Except.error e := rfl

theorem bind_ok_id (x : Except WState WState) :
    x >>= (fun a => Except.ok a) = x := by
  cases x <;> rfl

theorem bind_assoc_e (x : Except WState WState)
    (f g : WState → Except WState WState) :
    (x >>= f) >>= g = x >>= fun a => f a >>= g := by
  cases x <;> rfl

theorem emit_append_b (s : WState) (a b : List Nat) :
    emit s (a ++ b) = emit s a >>= fun s1 => emit s1 b :=
  emit_append s a b

theorem emit_nil (s : WState) : emit s [] = Except.ok s := rfl

theorem writeString_eq_emit (s : WState) (v : List Nat) :
    writeString s v = emit s (stringBytes v) := by
  simp only [writeString, stringBytes, emit_append_b, bind]

mutual

theorem writeTag_eq_emit (s : WState) (t : Tag) :
    writeTag s t = emit s (tagBytes t) := by
  cases t with
  | byte v => simp only [writeTag, tagBytes]
  | short v => simp only [writeTag, tagBytes]
  | int v => simp only [writeTag, tagBytes]
  | long v => simp only [writeTag, tagBytes]
  | float bits => simp only [writeTag, tagBytes]
  | double bits => simp only [writeTag, tagBytes]
  | byteArray v => simp only [writeTag, tagBytes, emit_append_b]
  | string v => simp only [writeTag, tagBytes, writeString_eq_emit]
  | list v =>
    have hl := fun s2 => writeTagList_eq_emit s2 v
    cases v with
    | nil =>
      simp only [writeTag, tagBytes, tagListBytes, hl, emit_append_b,
        List.append_nil, emit_nil, bind_ok_id]
    | cons t ts =>
      simp only [writeTag, tagBytes, hl, emit_append_b, bind_assoc_e]
  | compound nm tags =>
    have he := fun s1 => writeEntryList_eq_emit s1 tags
    simp only [writeTag, tagBytes, he, emit_append_b]
  | intArray v => simp only [writeTag, tagBytes, emit_append_b]
  | longArray v => simp only [writeTag, tagBytes, emit_append_b]
termination_by sizeOf t

theorem writeTagList_eq_emit (s : WState) (ts : List Tag) :
    writeTagList s ts = emit s (tagListBytes ts) := by
  cases ts with
  | nil => simp only [writeTagList, tagListBytes, emit]
  | cons t rest =>
    have h1 := writeTag_eq_emit s t
    have h2 := fun s1 => writeTagList_eq_emit s1 rest
    simp only [writeTagList, tagListBytes, h1, h2, emit_append_b]
termination_by sizeOf ts

theorem writeEntryList_eq_emit (s : WState) (es : List (List Nat × Tag)) :
    writeEntryList s es = emit s (entryListBytes es) := by
  cases es with
  | nil => simp only [writeEntryList, entryListBytes, emit]
  | cons p rest =>
    cases p with
    | mk n t =>
      have h1 := fun s2 => writeTag_eq_emit s2 t
      have h2 := fun s3 => writeEntryList_eq_emit s3 rest
      simp only [writeEntryList, entryListBytes, h1, h2,
        writeString_eq_emit, emit_append_b, bind_assoc_e]
termination_by sizeOf es

end

theorem writeCompoundTag_eq_emit (s : WState) (c : CompoundTag) :
    writeCompoundTag s c = emit s (compoundTagBytes c) := by
  have h := writeTag_eq_emit
  simp only [writeCompoundTag, compoundTagBytes, h, writeString_eq_emit,
    emit_append_b, bind_assoc_e]

/-- A fault-free sink oracle: no byte write ever fails. -/
def okW : Nat → Bool := fun _ => false

theorem firstFail_okW (start len : Nat) : firstFail okW start len = none := by
  induction len generalizing start with
  | zero => rfl
  | succ n ih => simp [firstFail, okW, ih]

theorem emit_ok (pre bs : List Nat) :
    emit ⟨pre, okW⟩ bs = Except.ok ⟨pre ++ bs, okW⟩ := by
  rw [emit_eq_runModel, runModel, firstFail_okW]

theorem writeTag_ok (pre : List Nat) (t : Tag) :
    writeTag ⟨pre, okW⟩ t = Except.ok ⟨pre ++ tagBytes t, okW⟩ := by
  rw [writeTag_eq_emit, emit_ok]

theorem writeString_ok (pre v : List Nat) :
    writeString ⟨pre, okW⟩ v = Except.ok ⟨pre ++ stringBytes v, okW⟩ := by
  rw [writeString_eq_emit, emit_ok]

theorem writeCompoundTag_ok (pre : List Nat) (c : CompoundTag) :
    writeCompoundTag ⟨pre, okW⟩ c =
      Except.ok ⟨pre ++ compoundTagBytes c, okW⟩ := by
  rw [writeCompoundTag_eq_emit, emit_ok]

/-! ### Arithmetic of the big-endian fields -/

theorem beBytes_length (w n : Nat) : (beBytes w n).length = w := by
  induction w generalizing n with
  | zero => rfl
  | succ w ih => simp [beBytes, ih]

theorem mod_pow_succ_split (n w : Nat) :
    n % 256 ^ (w + 1) = n % 256 ^ w + 256 ^ w * (n / 256 ^ w % 256) := by
  have h1 : n % (256 ^ w * 256) / 256 ^ w = n / 256 ^ w % 256 :=
    Nat.mod_mul_right_div_self n (256 ^ w) 256
  have h2 : n % (256 ^ w * 256) % 256 ^ w = n % 256 ^ w :=
    Nat.mod_mod_of_dvd n (dvd_mul_right (256 ^ w) 256)
  rw [pow_succ]
  calc n % (256 ^ w * 256)
      = 256 ^ w * (n % (256 ^ w * 256) / 256 ^ w)
          + n % (256 ^ w * 256) % 256 ^ w := (Nat.div_add_mod _ _).symm
    _ = 256 ^ w * (n / 256 ^ w % 256) + n % 256 ^ w := by rw [h1, h2]
    _ = n % 256 ^ w + 256 ^ w * (n / 256 ^ w % 256) := Nat.add_comm _ _

theorem beValAux_beBytes (w : Nat) (n a : Nat) :
    beValAux a (beBytes w n) = a * 256 ^ w + n % 256 ^ w := by
  induction w generalizing a with
  | zero => simp [beBytes, beValAux, Nat.mod_one]
  | succ w ih =>
    rw [beBytes, beValAux, ih, mod_pow_succ_split, pow_succ]
    ring

/-- A decoder reading back a `w`-byte big-endian field written from `n`
recovers `n % 256 ^ w`. -/
theorem beVal_beBytes (w n : Nat) : beVal (beBytes w n) = n % 256 ^ w := by
  simp [beVal, beValAux_beBytes]

theorem beVal_beBytes_of_lt (w n : Nat) (h : n < 256 ^ w) :
    beVal (beBytes w n) = n := by
  rw [beVal_beBytes, Nat.mod_eq_of_lt h]

theorem tagListBytes_eq_flatMap (ts : List Tag) :
    tagListBytes ts = ts.flatMap tagBytes := by
  induction ts with
  | nil => rfl
  | cons t rest ih => simp [tagListBytes, ih]

theorem entryListBytes_eq_flatMap (es : List (List Nat × Tag)) :
    entryListBytes es =
      es.flatMap (fun p => typeId p.2 :: (stringBytes p.1 ++ tagBytes p.2)) := by
  induction es with
  | nil => rfl
  | cons p rest ih =>
    cases p with
    | mk n t => simp [entryListBytes, ih]

/-! ### The claims -/

/-- C3: for every Compound tag, the encoder writes, for each (name, tag)
pair in the compound's insertion order, the child's type id byte, then the
child's name (16-bit length prefix plus bytes), then the child's payload
(recursively), and after all pairs exactly one sentinel byte 0; the output
bytes are fully determined by the ordered pair list. -/
theorem c3_compound_body_insertion_order (pre : List Nat)
    (nm : Option (List Nat)) (entries : List (List Nat × Tag)) :
    writeTag ⟨pre, okW⟩ (Tag.compound nm entries) =
      Except.ok ⟨pre ++ (entries.flatMap
        (fun p => typeId p.2 :: (stringBytes p.1 ++ tagBytes p.2)) ++ [0]),
        okW⟩ := by
  rw [writeTag_ok]
  simp [tagBytes, entryListBytes_eq_flatMap]

/-- C4: for every non-empty List tag the encoder writes the first element's
type id as the single element-type byte, then the 4-byte big-endian count
field, then each element's payload back-to-back — no per-element type ids,
no names.  The equation holds for arbitrary tails `ts`, in particular for
heterogeneous lists: nothing re-validates that later elements share the
first element's variant. -/
theorem c4_nonempty_list_layout (pre : List Nat) (t : Tag) (ts : List Tag) :
    writeTag ⟨pre, okW⟩ (Tag.list (t :: ts)) =
      Except.ok ⟨pre ++ (typeId t :: (beBytes 4 (t :: ts).length ++
        (t :: ts).flatMap tagBytes)), okW⟩ := by
  rw [writeTag_ok]
  simp [tagBytes, tagListBytes_eq_flatMap]

/-- C5: for every empty List tag the encoder writes element type id 0
followed by the 4-byte big-endian count 0, and nothing else. -/
theorem c5_empty_list_layout (pre : List Nat) :
    writeTag ⟨pre, okW⟩ (Tag.list []) =
      Except.ok ⟨pre ++ (0 :: beBytes 4 0), okW⟩ ∧
    beBytes 4 0 = [0, 0, 0, 0] := by
  refine ⟨?_, by decide⟩
  rw [writeTag_ok]
  simp [tagBytes, tagListBytes]

/-- C6: for every empty Compound tag the encoder writes its body as exactly
the single sentinel byte 0. -/
theorem c6_empty_compound_body (pre : List Nat) (nm : Option (List Nat)) :
    writeTag ⟨pre, okW⟩ (Tag.compound nm []) =
      Except.ok ⟨pre ++ [0], okW⟩ := by
  rw [writeTag_ok]
  simp [tagBytes, entryListBytes]

/-- C7: for every String tag whose UTF-8 payload has `N ≤ 65535` bytes, the
encoded form is exactly a 2-byte big-endian length field decoding to `N`,
followed by the `N` payload bytes, with no terminator. -/
theorem c7_string_layout (pre v : List Nat) (h : v.length ≤ 65535) :
    writeTag ⟨pre, okW⟩ (Tag.string v) =
      Except.ok ⟨pre ++ (beBytes 2 v.length ++ v), okW⟩ ∧
    beVal (beBytes 2 v.length) = v.length ∧
    (beBytes 2 v.length).length = 2 := by
  refine ⟨?_, ?_, beBytes_length 2 v.length⟩
  · rw [writeTag_ok]
    simp [tagBytes, stringBytes]
  · exact beVal_beBytes_of_lt 2 v.length (by omega)

/-- C7 witness: the two-byte string "hi". -/
theorem c7_string_layout_witness :
    ([104, 105] : List Nat).length ≤ 65535 ∧
    (writeTag ⟨[], okW⟩ (Tag.string [104, 105]) =
      Except.ok ⟨[] ++ (beBytes 2 ([104, 105] : List Nat).length ++ [104, 105]),
        okW⟩ ∧
    beVal (beBytes 2 ([104, 105] : List Nat).length) =
      ([104, 105] : List Nat).length ∧
    (beBytes 2 ([104, 105] : List Nat).length).length = 2) :=
  ⟨by decide, c7_string_layout [] [104, 105] (by decide)⟩

/-- C8: for every ByteArray, IntArray and LongArray tag, the encoder writes
the 4-byte big-endian count field then each element in its fixed-width
big-endian two's-complement form (`intBe w x` is the `w`-byte encoding of
`x mod 2^(8w)`), in sequence order; every element field has the fixed
width. -/
theorem c8_arrays_layout (pre : List Nat) (v : List Int) :
    writeTag ⟨pre, okW⟩ (Tag.byteArray v) =
      Except.ok ⟨pre ++ (beBytes 4 v.length ++ v.flatMap (intBe 1)), okW⟩ ∧
    writeTag ⟨pre, okW⟩ (Tag.intArray v) =
      Except.ok ⟨pre ++ (beBytes 4 v.length ++ v.flatMap (intBe 4)), okW⟩ ∧
    writeTag ⟨pre, okW⟩ (Tag.longArray v) =
      Except.ok ⟨pre ++ (beBytes 4 v.length ++ v.flatMap (intBe 8)), okW⟩ ∧
    (∀ x : Int, (intBe 1 x).length = 1 ∧ (intBe 4 x).length = 4 ∧
      (intBe 8 x).length = 8) := by
  refine ⟨?_, ?_, ?_, fun x => ⟨beBytes_length _ _, beBytes_length _ _,
    beBytes_length _ _⟩⟩ <;>
    rw [writeTag_ok] <;> simp [tagBytes]

/-- C10 (implicit): for every ByteArray, IntArray or LongArray tag the
emitted 4-byte count field decodes to the element count reduced modulo
`2^32` (`len() as u32`), and encoding succeeds — a sequence of `2^32` or
more elements gets a silently wrapped count, not an error. -/
theorem c10_array_count_wraps (pre : List Nat) (v : List Int) :
    beVal (beBytes 4 v.length) = v.length % 2 ^ 32 ∧
    (writeTag ⟨pre, okW⟩ (Tag.byteArray v)).isOk = true ∧
    (writeTag ⟨pre, okW⟩ (Tag.intArray v)).isOk = true ∧
    (writeTag ⟨pre, okW⟩ (Tag.longArray v)).isOk = true := by
  refine ⟨?_, ?_, ?_, ?_⟩
  · rw [beVal_beBytes]
    norm_num
  all_goals rw [writeTag_ok]; rfl

/-- C1: the spec requires encoding to FAIL for strings longer than 65535
bytes, but `write_string` computes `value.len() as u16`: for the 65536-byte
string it returns Ok, emitting the wrapped length field `[0, 0]` (decoding
to 0, not 65536) followed by all 65536 payload bytes — a silently corrupted
length field instead of an error. -/
theorem c1_long_string_wraps_instead_of_failing :
    writeTag ⟨[], okW⟩ (Tag.string (List.replicate 65536 97)) =
      Except.ok ⟨0 :: 0 :: List.replicate 65536 97, okW⟩ ∧
    beVal [0, 0] ≠ (List.replicate (65536 : Nat) (97 : Nat)).length := by
  have hb : beBytes 2 65536 = [0, 0] := by decide
  constructor
  · rw [writeTag_ok]
    simp only [tagBytes, stringBytes, List.length_replicate, hb,
      List.cons_append, List.nil_append]
  · rw [List.length_replicate]
    decide

/-- C2 counterexample: for the compound whose root name is 65536 bytes long,
the emitted 2-byte name field is `[0, 0]`, which does not hold the name's
byte length — the claimed layout "16-bit big-endian byte-length prefix"
fails for this input. -/
theorem c2_counterexample_long_name :
    writeCompoundTag ⟨[], okW⟩ ⟨some (List.replicate 65536 97), []⟩ =
      Except.ok ⟨10 :: 0 :: 0 :: (List.replicate 65536 97 ++ [0]), okW⟩ ∧
    beVal [0, 0] ≠
      ((CompoundTag.mk (some (List.replicate 65536 97)) []).name.getD
        []).length := by
  have hb : beBytes 2 65536 = [0, 0] := by decide
  constructor
  · rw [writeCompoundTag_ok]
    simp only [compoundTagBytes, CompoundTag.toTag, typeId, stringBytes,
      tagBytes, entryListBytes, Option.getD_some, List.length_replicate, hb,
      List.cons_append, List.nil_append]
  · simp only [Option.getD_some, List.length_replicate]
    decide

/-- C2 (amended): for every CompoundTag whose name's UTF-8 byte length is at
most 65535 (the empty string standing in when the compound has no name),
`write_compound_tag` emits, in order, the Compound type id byte 10, the
2-byte big-endian length field decoding to the name's byte length, the raw
name bytes, and then the compound's body. -/
theorem c2_amended_root_layout (pre : List Nat) (c : CompoundTag)
    (h : (c.name.getD []).length ≤ 65535) :
    writeCompoundTag ⟨pre, okW⟩ c =
      Except.ok ⟨pre ++ (typeId c.toTag :: (beBytes 2 (c.name.getD []).length
        ++ (c.name.getD [] ++ tagBytes c.toTag))), okW⟩ ∧
    typeId c.toTag = 10 ∧
    beVal (beBytes 2 (c.name.getD []).length) = (c.name.getD []).length := by
  refine ⟨?_, rfl, beVal_beBytes_of_lt 2 _ (by omega)⟩
  rw [writeCompoundTag_ok]
  simp [compoundTagBytes, stringBytes]

/-- C2 amended witness: a compound named "a" with one Byte child keyed "b". -/
theorem c2_amended_root_layout_witness :
    ((CompoundTag.mk (some [97]) [([98], Tag.byte 1)]).name.getD
      []).length ≤ 65535 ∧
    (writeCompoundTag ⟨[], okW⟩ (CompoundTag.mk (some [97]) [([98], Tag.byte 1)]) =
      Except.ok ⟨[] ++ (typeId (CompoundTag.mk (some [97])
          [([98], Tag.byte 1)]).toTag ::
        (beBytes 2 (((CompoundTag.mk (some [97])
          [([98], Tag.byte 1)]).name.getD []).length)
        ++ ((CompoundTag.mk (some [97]) [([98], Tag.byte 1)]).name.getD []
          ++ tagBytes (CompoundTag.mk (some [97])
            [([98], Tag.byte 1)]).toTag))), okW⟩ ∧
    typeId (CompoundTag.mk (some [97]) [([98], Tag.byte 1)]).toTag = 10 ∧
    beVal (beBytes 2 (((CompoundTag.mk (some [97])
        [([98], Tag.byte 1)]).name.getD []).length)) =
      ((CompoundTag.mk (some [97]) [([98], Tag.byte 1)]).name.getD
        []).length) :=
  ⟨by decide,
    c2_amended_root_layout [] (CompoundTag.mk (some [97]) [([98], Tag.byte 1)])
      (by decide)⟩

/-- A fault oracle whose third byte write (index 2) fails. -/
def failSecondByte : Nat → Bool := fun n => n == 2

/-- C9: for every compound, start state and fault oracle, the encoder's
interaction with the sink is exactly `runModel`: if no byte write fails, it
returns Ok having written the whole encoding; if some write fails, it
returns the error at the FIRST failing write — the bytes written before
the failure remain in the sink and nothing is written at or after the
failing write.  Totality of the (non-`panic`) model covers every case. -/
theorem c9_failure_propagation (pre : List Nat) (f : Nat → Bool)
    (c : CompoundTag) :
    writeCompoundTag ⟨pre, f⟩ c = runModel pre f (compoundTagBytes c) ∧
    (firstFail f pre.length (compoundTagBytes c).length = none →
      writeCompoundTag ⟨pre, f⟩ c =
        Except.ok ⟨pre ++ compoundTagBytes c, f⟩) ∧
    (∀ k, firstFail f pre.length (compoundTagBytes c).length = some k →
      writeCompoundTag ⟨pre, f⟩ c =
        Except.error ⟨pre ++ (compoundTagBytes c).take k, f⟩) := by
  have hm : writeCompoundTag ⟨pre, f⟩ c =
      runModel pre f (compoundTagBytes c) := by
    rw [writeCompoundTag_eq_emit, emit_eq_runModel]
  refine ⟨hm, fun hn => ?_, fun k hk => ?_⟩
  · rw [hm, runModel, hn]
  · rw [hm, runModel, hk]

/-- C9 witness: encoding the unnamed empty compound (4 bytes `10 0 0 0`)
against a sink whose third byte write fails stops with the error, leaving
exactly the first two bytes in the sink. -/
theorem c9_failure_propagation_witness :
    firstFail failSecondByte ([] : List Nat).length
        (compoundTagBytes ⟨none, []⟩).length = some 2 ∧
    writeCompoundTag ⟨[], failSecondByte⟩ ⟨none, []⟩ =
      Except.error ⟨[] ++ (compoundTagBytes ⟨none, []⟩).take 2,
        failSecondByte⟩ := by
  have hb : compoundTagBytes ⟨none, []⟩ = [10, 0, 0, 0] := by
    simp [compoundTagBytes, CompoundTag.toTag, typeId, stringBytes, tagBytes,
      entryListBytes, beBytes]
  have hk : firstFail failSecondByte ([] : List Nat).length
      (compoundTagBytes ⟨none, []⟩).length = some 2 := by
    rw [hb]; decide
  exact ⟨hk, (c9_failure_propagation [] failSecondByte ⟨none, []⟩).2.2 2 hk⟩

end Nbt
